import Mathlib

/-!
A verification development for the BranchDB repository: a shallow embedding
of the commit store, CRDT engine, codec, versioned view, merge planner and
revert logic (src/core/{models,crdt,merge,database,query}.rs and
src/cli/commands.rs), together with theorems settling the frozen claims
about it.

Modelling conventions:
* Rust byte strings (`Vec<u8>`, `String`, `[u8; 32]`) are `List Nat`
  of their bytes.
* Rust `HashMap` values are association lists; the list order stands for
  the map's (unspecified) iteration order, and logical map equality is
  lookup-extensional equality.
* Fallible Rust functions returning `Result` become `Except String`.
* Unbounded ancestry-walk loops take an explicit fuel parameter; all
  concrete evaluations use ample fuel.
-/

set_option maxRecDepth 100000

deriving instance DecidableEq for Except

namespace BranchDB

/-- Byte strings: Rust `Vec<u8>` / `String` (UTF-8 bytes) / `[u8; 32]`. -/
abbrev Bytes := List Nat

/-! ## Association-list model of Rust `HashMap` -/

/-- `HashMap::get`: first value stored under the key. -/
def alookup {α β : Type} [DecidableEq α] : List (α × β) → α → Option β
  | [], _ => none
  | (k, v) :: t, a => if k = a then some v else alookup t a

/-- `HashMap::insert`: replace the first occurrence of the key, or append. -/
def aset {α β : Type} [DecidableEq α] : List (α × β) → α → β → List (α × β)
  | [], k, v => [(k, v)]
  | (k', v') :: t, k, v => if k' = k then (k, v) :: t else (k', v') :: aset t k v

/-- `HashMap::remove`: delete the first occurrence of the key. -/
def aremove {α β : Type} [DecidableEq α] : List (α × β) → α → List (α × β)
  | [], _ => []
  | (k', v') :: t, k => if k' = k then t else (k', v') :: aremove t k

/-! ## Byte-level helpers -/

/-- Little-endian fixed-width encoding of a natural number on `k` bytes
(bincode 1.x `FixintEncoding`, as used by the repository's
`bincode::serialize`). -/
def natLE : Nat → Nat → Bytes
  | 0, _ => []
  | k + 1, n => n % 256 :: natLE k (n / 256)

/-- Recompose a little-endian byte list into a natural number. -/
def leNat : Bytes → Nat
  | [] => 0
  | b :: bs => b + 256 * leNat bs

/-- Strict byte-lexicographic order on byte strings (Rust `Vec<u8>` `Ord`:
a proper prefix is smaller). -/
def bytesLt : Bytes → Bytes → Bool
  | [], [] => false
  | [], _ :: _ => true
  | _ :: _, [] => false
  | a :: as, b :: bs => if a < b then true else if b < a then false else bytesLt as bs

/-- Non-strict key order used to sort scanned rows ascending. -/
def keyLe (a b : Bytes × Bytes) : Bool := ! bytesLt b.1 a.1

/-- Insertion sort of `(key, value)` pairs by ascending key
(`rows.sort_by(|a, b| a.0.cmp(&b.0))`). -/
def sortRows : List (Bytes × Bytes) → List (Bytes × Bytes)
  | [] => []
  | p :: t => insertRow p (sortRows t)
where
  insertRow (p : Bytes × Bytes) : List (Bytes × Bytes) → List (Bytes × Bytes)
    | [] => [p]
    | q :: t => if keyLe p q then p :: q :: t else q :: insertRow p t

/-- Lowercase hex encoding of a byte string (`hex::encode`). -/
def hexEncode (bs : Bytes) : Bytes :=
  bs.flatMap fun b =>
    let hi := b / 16 % 16
    let lo := b % 16
    [if hi < 10 then 48 + hi else 87 + hi, if lo < 10 then 48 + lo else 87 + lo]

/-! ## Data model (src/core/crdt.rs, src/core/models.rs) -/

/-- `CrdtValue` from src/core/crdt.rs: `Counter(u64)` or `Register(Vec<u8>)`. -/
inductive CrdtValue : Type
  | Counter : Nat → CrdtValue
  | Register : Bytes → CrdtValue

deriving DecidableEq

/-- `Change` from src/core/models.rs: tagged variant with `table`, `id`
and (for Insert/Update) an encoded `value`. -/
inductive Change : Type
  | Insert : Bytes → Bytes → Bytes → Change
  | Update : Bytes → Bytes → Bytes → Change
  | Delete : Bytes → Bytes → Change

deriving DecidableEq

/-- `Change::table()` accessor. -/
def Change.table : Change → Bytes
  | .Insert t _ _ => t
  | .Update t _ _ => t
  | .Delete t _ => t

/-- `Commit` from src/core/models.rs. `tree` is a `HashMap<String, [u8; 32]>`;
the list order models its iteration order. -/
structure Commit : Type where
  parents : List Bytes
  message : Bytes
  timestamp : Nat
  changes : List Change
  tree : List (Bytes × Bytes)

deriving DecidableEq

/-! ## Codec (bincode 1.x as called through `bincode::serialize` /
`bincode::deserialize`: little-endian fixed-width integers, `u64` length
prefixes, `u32` enum tags, raw fixed-size arrays; a deserializer reads a
prefix of its input and ignores trailing bytes) -/

def u64Bound : Nat := 2 ^ 64

/-- `u64` length prefix followed by the raw bytes (`Vec<u8>` / `String`). -/
def encBytes (bs : Bytes) : Bytes := natLE 8 bs.length ++ bs

def encodeCrdtValue : CrdtValue → Bytes
  | .Counter n => natLE 4 0 ++ natLE 8 n
  | .Register bs => natLE 4 1 ++ encBytes bs

def encodeChange : Change → Bytes
  | .Insert t i v => natLE 4 0 ++ encBytes t ++ encBytes i ++ encBytes v
  | .Update t i v => natLE 4 1 ++ encBytes t ++ encBytes i ++ encBytes v
  | .Delete t i => natLE 4 2 ++ encBytes t ++ encBytes i

/-- bincode encoding of a `Commit`, with the `tree` map serialized in the
iteration order carried by the model. -/
def encodeCommit (c : Commit) : Bytes :=
  natLE 8 c.parents.length ++ c.parents.flatMap id ++
  encBytes c.message ++
  natLE 8 c.timestamp ++
  natLE 8 c.changes.length ++ c.changes.flatMap encodeChange ++
  natLE 8 c.tree.length ++ c.tree.flatMap (fun p => encBytes p.1 ++ p.2)

/-- Read a `k`-byte little-endian unsigned integer. -/
def decodeUInt (k : Nat) (bs : Bytes) : Option (Nat × Bytes) :=
  if k ≤ bs.length then some (leNat (bs.take k), bs.drop k) else none

/-- Read a `u64`-length-prefixed byte string. -/
def decodeBytes (bs : Bytes) : Option (Bytes × Bytes) := do
  let (n, r) ← decodeUInt 8 bs
  if n ≤ r.length then some (r.take n, r.drop n) else none

/-- Read a raw `[u8; 32]`. -/
def decodeArr32 (bs : Bytes) : Option (Bytes × Bytes) :=
  if 32 ≤ bs.length then some (bs.take 32, bs.drop 32) else none

/-- Read `n` consecutive values with the element decoder `dec`. -/
def decodeN {α : Type} (dec : Bytes → Option (α × Bytes)) :
    Nat → Bytes → Option (List α × Bytes)
  | 0, bs => some ([], bs)
  | n + 1, bs => do
    let (x, r) ← dec bs
    let (xs, r') ← decodeN dec n r
    some (x :: xs, r')

def decodeCrdtValue (bs : Bytes) : Option (CrdtValue × Bytes) := do
  let (tag, r) ← decodeUInt 4 bs
  if tag = 0 then
    let (n, r') ← decodeUInt 8 r
    some (.Counter n, r')
  else if tag = 1 then
    let (v, r') ← decodeBytes r
    some (.Register v, r')
  else none

def decodeChange (bs : Bytes) : Option (Change × Bytes) := do
  let (tag, r) ← decodeUInt 4 bs
  if tag = 0 then
    let (t, r1) ← decodeBytes r
    let (i, r2) ← decodeBytes r1
    let (v, r3) ← decodeBytes r2
    some (.Insert t i v, r3)
  else if tag = 1 then
    let (t, r1) ← decodeBytes r
    let (i, r2) ← decodeBytes r1
    let (v, r3) ← decodeBytes r2
    some (.Update t i v, r3)
  else if tag = 2 then
    let (t, r1) ← decodeBytes r
    let (i, r2) ← decodeBytes r1
    some (.Delete t i, r2)
  else none

def decodeTreeEntry (bs : Bytes) : Option ((Bytes × Bytes) × Bytes) := do
  let (k, r) ← decodeBytes bs
  let (v, r') ← decodeArr32 r
  some ((k, v), r')

def decodeCommit (bs : Bytes) : Option (Commit × Bytes) := do
  let (np, r0) ← decodeUInt 8 bs
  let (ps, r1) ← decodeN decodeArr32 np r0
  let (msg, r2) ← decodeBytes r1
  let (ts, r3) ← decodeUInt 8 r2
  let (nc, r4) ← decodeUInt 8 r3
  let (chs, r5) ← decodeN decodeChange nc r4
  let (nt, r6) ← decodeUInt 8 r5
  let (tr, r7) ← decodeN decodeTreeEntry nt r6
  some ({ parents := ps, message := msg, timestamp := ts, changes := chs,
          tree := tr }, r7)

/-- `bincode::deserialize::<Commit>`: parse a prefix, ignore the rest. -/
def deserializeCommit (bs : Bytes) : Option Commit := (decodeCommit bs).map (·.1)

/-- `bincode::deserialize::<CrdtValue>`: parse a prefix, ignore the rest. -/
def deserializeCrdtValue (bs : Bytes) : Option CrdtValue :=
  (decodeCrdtValue bs).map (·.1)

/-! ### Well-formedness: the size bounds every value held in a live Rust
process satisfies (`Vec`/`String` lengths fit in `u64`, hashes are 32
bytes, `u64` fields are below `2^64`). -/

def Change.wf : Change → Prop
  | .Insert t i v => t.length < u64Bound ∧ i.length < u64Bound ∧ v.length < u64Bound
  | .Update t i v => t.length < u64Bound ∧ i.length < u64Bound ∧ v.length < u64Bound
  | .Delete t i => t.length < u64Bound ∧ i.length < u64Bound

instance : DecidablePred Change.wf := by
  intro c; cases c <;> simp only [Change.wf] <;> infer_instance

def Commit.wf (c : Commit) : Prop :=
  c.parents.length < u64Bound ∧ (∀ p ∈ c.parents, p.length = 32) ∧
  c.message.length < u64Bound ∧ c.timestamp < u64Bound ∧
  c.changes.length < u64Bound ∧ (∀ ch ∈ c.changes, ch.wf) ∧
  c.tree.length < u64Bound ∧ (∀ e ∈ c.tree, e.1.length < u64Bound ∧ e.2.length = 32)

instance (c : Commit) : Decidable c.wf := by
  unfold Commit.wf; infer_instance

/-! ## Hasher model (C1 of the spec)

`blake3` is an external collaborator: callers only compare digests for
equality, digests are 32 bytes, and collision resistance is assumed
(spec §4.1).  Modelled as a fixed executable 32-byte digest — an
FNV-style fold of the input stream spread over 32 output bytes.
A streaming `Hasher` (`update`/`finalize`) digests the concatenation of
its chunks. -/
def blake3Hash (bs : Bytes) : Bytes :=
  let seed := bs.foldl (fun a b => (a * 1099511628211 + b + 1) % u64Bound) 14695981039346656037
  (List.range 32).map fun i =>
    (seed / 2 ^ (8 * (i % 8)) + (i / 8) * (seed % 251) + i) % 256

/-! ## KV adapter model (spec §4.3, §6)

The ordered KV engine is an excluded collaborator; its contract: point
`get`/`put`/`delete`, `prefix_scan` returning the entries whose key starts
with the given bytes, and atomic write batches. -/

abbrev KV := List (Bytes × Bytes)

def kvGet (kv : KV) (k : Bytes) : Option Bytes := alookup kv k

def kvPut (kv : KV) (k v : Bytes) : KV := aset kv k v

def kvDel (kv : KV) (k : Bytes) : KV := aremove kv k

/-- `prefix_scan`: every entry whose key starts with `p`. -/
def kvScanPref (kv : KV) (p : Bytes) : List (Bytes × Bytes) :=
  kv.filter fun e => p.isPrefixOf e.1

/-- One entry of a `rocksdb::WriteBatch`: `some v` is a put, `none` a delete. -/
abbrev BatchEntry := Bytes × Option Bytes

def applyBatch (kv : KV) (es : List BatchEntry) : KV :=
  es.foldl (fun acc e => match e.2 with
    | some v => kvPut acc e.1 v
    | none => kvDel acc e.1) kv

/-- A top-level storage operation issued by the commit store: a single
`db.put` or one atomic `db.write(batch)`.  A crash can fall between two
top-level operations but never inside one. -/
inductive DbOp : Type
  | put : Bytes → Bytes → DbOp
  | wbatch : List BatchEntry → DbOp

deriving DecidableEq

def applyOp (kv : KV) : DbOp → KV
  | .put k v => kvPut kv k v
  | .wbatch es => applyBatch kv es

def applyOps (kv : KV) (ops : List DbOp) : KV := ops.foldl applyOp kv

/-- The `HEAD` key: 4 ASCII bytes. -/
def headKey : Bytes := [72, 69, 65, 68]

/-- `branch:<name>` key. -/
def branchKey (name : Bytes) : Bytes := [98, 114, 97, 110, 99, 104, 58] ++ name

/-! ## CRDT state engine (src/core/crdt.rs) -/

abbrev Rows := List (Bytes × CrdtValue)

/-- `CrdtEngine.state`: `table → id → CrdtValue` as nested association
lists in iteration order. -/
abbrev CrdtEngine := List (Bytes × Rows)

/-- `CrdtEngine::apply_change`: Insert/Update decode the value and replace
the `(table, id)` slot; Delete removes the slot if the table exists. -/
def CrdtEngine.apply_change (e : CrdtEngine) (c : Change) : Except String CrdtEngine :=
  match c with
  | .Insert table id value | .Update table id value =>
    match deserializeCrdtValue value with
    | none => .error "SerializationError"
    | some dv => .ok (aset e table (aset ((alookup e table).getD []) id dv))
  | .Delete table id =>
    .ok (match alookup e table with
         | none => e
         | some rows => aset e table (aremove rows id))

/-- One slot of `CrdtEngine::merge`: combine the local slot (if any) with a
remote value under the typed rules; `Counter`/`Register` mismatch errors. -/
def mergeRow (mine : Rows) (id : Bytes) (v : CrdtValue) : Except String Rows :=
  match alookup mine id, v with
  | some (.Counter l), .Counter r => .ok (aset mine id (.Counter (max l r)))
  | some (.Register l), .Register r =>
    .ok (if bytesLt l r then aset mine id (.Register r) else mine)
  | none, v' => .ok (aset mine id v')
  | _, _ => .error "Type mismatch on merge"

/-- `CrdtEngine::merge(self, other)`: fold every `(table, id)` of `other`
into `self` with `mergeRow`; the `entry(..).or_default()` makes the table
present in the result even when `other`'s row map is empty. -/
def CrdtEngine.merge (a b : CrdtEngine) : Except String CrdtEngine :=
  b.foldlM (fun st e => do
    let merged ← e.2.foldlM (fun rows p => mergeRow rows p.1 p.2) ((alookup st e.1).getD [])
    pure (aset st e.1 merged)) a

/-! ## Merge planner (src/core/merge.rs) -/

/-- `merge_states(state1, state2)`: for every `(table, id)` of `state2`,
overwrite `state1`'s differing or missing slot with `state2`'s value and
emit an `Update` (differing) or `Insert` (missing) carrying that value
re-encoded; returns the mutated `state1` together with the changes. -/
def merge_states (state1 state2 : CrdtEngine) : CrdtEngine × List Change :=
  state2.foldl
    (fun acc e =>
      let inner := e.2.foldl
        (fun (acc2 : Rows × List Change) p =>
          match alookup acc2.1 p.1 with
          | some localVal =>
            if localVal ≠ p.2 then
              (aset acc2.1 p.1 p.2,
               acc2.2 ++ [Change.Update e.1 p.1 (encodeCrdtValue p.2)])
            else acc2
          | none =>
            (aset acc2.1 p.1 p.2,
             acc2.2 ++ [Change.Insert e.1 p.1 (encodeCrdtValue p.2)]))
        ((alookup acc.1 e.1).getD [], acc.2)
      (aset acc.1 e.1 inner.1, inner.2))
    (state1, [])

/-! ## Commit store (src/core/database.rs) -/

/-- `CommitStorage::get_commit_by_hash`: fetch the raw value and
bincode-deserialize it (the stored trailing checksum is never stripped). -/
def get_commit_by_hash (kv : KV) (hash : Bytes) : Except String Commit :=
  match kvGet kv hash with
  | none => .error "Commit not found"
  | some raw =>
    match deserializeCommit raw with
    | none => .error "SerializationError"
    | some c => .ok c

/-- `CommitStorage::get_head`: absent is fine, a present non-32-byte value
is an error. -/
def get_head (kv : KV) : Except String (Option Bytes) :=
  match kvGet kv headKey with
  | some raw =>
    if raw.length = 32 then .ok (some raw) else .error "HEAD contains invalid data"
  | none => .ok none

/-- `CommitStorage::calculate_table_hash`: prefix-scan on the bare table
name (note: no trailing colon), sort the collected `(key, value)` pairs by
key ascending, fold them through the hasher. -/
def calculate_table_hash (kv : KV) (table : Bytes) : Bytes :=
  let rows := sortRows (kvScanPref kv table)
  blake3Hash (rows.foldl (fun acc p => acc ++ p.1 ++ p.2) [])

/-- The commit value built inside `create_commit` (lines 44-58): parents
from HEAD, per-touched-table content hashes from the current KV. -/
def built_commit (parent : Option Bytes) (kv : KV) (message : Bytes)
    (changes : List Change) (now : Nat) : Commit :=
  { parents := parent.toList
    message := message
    timestamp := now
    changes := changes
    tree := changes.foldl
      (fun t c => aset t c.table (calculate_table_hash kv c.table)) [] }

/-- `CommitStorage::create_commit` as the sequence of storage operations it
issues: encode, hash, self-check the round-trip's message, then store the
commit (encoding plus 32-byte checksum) and update HEAD with two separate
`db.put` calls. -/
def create_commit_ops (kv : KV) (message : Bytes) (changes : List Change)
    (now : Nat) : Except String (List DbOp × Bytes) :=
  match get_head kv with
  | .error e => .error e
  | .ok parent =>
    let commit := built_commit parent kv message changes now
    let serialized := encodeCommit commit
    let hashBytes := blake3Hash serialized
    match deserializeCommit serialized with
    | none => .error "SerializationError"
    | some test =>
      if test.message = commit.message then
        .ok ([DbOp.put hashBytes (serialized ++ blake3Hash serialized),
              DbOp.put headKey hashBytes], hashBytes)
      else .error "Serialization roundtrip failed"

/-- `create_commit` applied to the store: returns the new KV and the hash. -/
def create_commit (kv : KV) (message : Bytes) (changes : List Change)
    (now : Nat) : Except String (KV × Bytes) :=
  match create_commit_ops kv message changes now with
  | .error e => .error e
  | .ok (ops, h) => .ok (applyOps kv ops, h)

/-- The primary-parent ancestry walk used by `revert_to_commit` (newest
first, errors propagate); fuel bounds the unbounded Rust loop. -/
def walk_chain : Nat → KV → Option Bytes → Except String (List Commit)
  | _, _, none => .ok []
  | 0, _, some _ => .error "fuel exhausted"
  | fuel + 1, kv, some h => do
    let c ← get_commit_by_hash kv h
    let rest ← walk_chain fuel kv c.parents.head?
    .ok (c :: rest)

/-- The byte string `Revert to <hex(hash)>`. -/
def revertMsg (hash : Bytes) : Bytes :=
  [82, 101, 118, 101, 114, 116, 32, 116, 111, 32] ++ hexEncode hash

/-- `CommitStorage::revert_to_commit`: replay the target's primary-parent
chain oldest-first into a fresh engine, batch-delete every `<table>:` row of
the target's tree tables, batch-put the rebuilt rows, write the batch, then
create a commit whose changes are the target's with Inserts turned into
Deletes. -/
def revert_to_commit (fuel : Nat) (kv : KV) (commit_hash : Bytes) (now : Nat) :
    Except String (KV × Bytes) := do
  let target ← get_commit_by_hash kv commit_hash
  let commits ← walk_chain fuel kv (some commit_hash)
  let engine ← commits.reverse.foldlM
    (fun e c => c.changes.foldlM CrdtEngine.apply_change e) ([] : CrdtEngine)
  let delEntries := target.tree.flatMap fun e =>
    (kvScanPref kv (e.1 ++ [58])).map fun p => (p.1, (none : Option Bytes))
  let putEntries := engine.flatMap fun te =>
    te.2.map fun p => (te.1 ++ [58] ++ p.1, some (encodeCrdtValue p.2))
  let revChanges := target.changes.map fun c =>
    match c with
    | .Insert t i _ => Change.Delete t i
    | other => other
  let kv1 := applyBatch kv (delEntries ++ putEntries)
  let (ops, h) ← create_commit_ops kv1 (revertMsg commit_hash) revChanges now
  .ok (applyOps kv1 ops, h)

/-- The per-table walk of `get_table_diffs`: start at the given commit's
primary parent, apply matching changes forward-within-commit while walking
parent-ward (newest commit first); errors propagate. -/
def diff_walk : Nat → KV → Bytes → Option Bytes → CrdtEngine →
    Except String CrdtEngine
  | _, _, _, none, e => .ok e
  | 0, _, _, some _, _ => .error "fuel exhausted"
  | fuel + 1, kv, table, some h, e => do
    let c ← get_commit_by_hash kv h
    let e' ← c.changes.foldlM
      (fun acc ch => if ch.table = table then acc.apply_change ch else .ok acc) e
    diff_walk fuel kv table c.parents.head? e'

/-- `CommitStorage::get_table_diffs`: build both endpoint states starting
from each commit's parents, then emit Update/Insert for rows added or
changed in `to` and Delete for rows only in `from`. -/
def get_table_diffs (fuel : Nat) (kv : KV) (table : Bytes) (fromH toH : Bytes) :
    Except String (List Change) := do
  let from_commit ← get_commit_by_hash kv fromH
  let to_commit ← get_commit_by_hash kv toH
  let from_engine ← diff_walk fuel kv table from_commit.parents.head? []
  let to_engine ← diff_walk fuel kv table to_commit.parents.head? []
  let from_rows := (alookup from_engine table).getD []
  let to_rows := (alookup to_engine table).getD []
  let upserts := to_rows.foldl
    (fun acc p =>
      match alookup from_rows p.1 with
      | some fv =>
        if fv ≠ p.2 then acc ++ [Change.Update table p.1 (encodeCrdtValue p.2)]
        else acc
      | none => acc ++ [Change.Insert table p.1 (encodeCrdtValue p.2)])
    []
  let dels := from_rows.foldl
    (fun acc p =>
      if (alookup to_rows p.1).isNone then acc ++ [Change.Delete table p.1] else acc)
    []
  .ok (upserts ++ dels)

/-- The reserved id `!schema`. -/
def schemaId : Bytes := [33, 115, 99, 104, 101, 109, 97]

/-- `CommitStorage::get_commit_diffs`: iterate `to.tree`; a table missing
from `from.tree` yields a placeholder schema Insert; a differing per-table
hash delegates to `get_table_diffs`; an equal hash yields nothing. -/
def get_commit_diffs (fuel : Nat) (kv : KV) (fromH toH : Bytes) :
    Except String (List Change) := do
  let from_commit ← get_commit_by_hash kv fromH
  let to_commit ← get_commit_by_hash kv toH
  to_commit.tree.foldlM
    (fun diffs e =>
      match alookup from_commit.tree e.1 with
      | some fh =>
        if fh ≠ e.2 then
          (get_table_diffs fuel kv e.1 fromH toH).map (fun d => diffs ++ d)
        else .ok diffs
      | none => .ok (diffs ++ [Change.Insert e.1 schemaId []]))
    []

/-! ## Versioned view (src/core/query.rs) -/

/-- The walk loop of `QueryProcessor::get_table_at_commit`: visit the
current commit, apply its matching changes **in reverse stored order**
(`changes.iter().rev()`), ignoring per-change apply failures, break (and
return the partial state) on a failed commit load, descend via
`parents[0]`.  The hex round-trip of the hash in the source is the
identity and is elided.  Fuel bounds the unbounded loop; every use below
supplies ample fuel. -/
def gtacLoop : Nat → KV → Bytes → Bytes → CrdtEngine → CrdtEngine
  | 0, _, _, _, e => e
  | fuel + 1, kv, table, current, e =>
    if current = [] then e
    else
      match get_commit_by_hash kv current with
      | .error _ => e
      | .ok c =>
        let e' := (c.changes.reverse.filter fun ch => ch.table = table).foldl
          (fun acc ch =>
            match acc.apply_change ch with
            | .ok x => x
            | .error _ => acc) e
        gtacLoop fuel kv table (c.parents.head?.getD []) e'

/-- `QueryProcessor::get_table_at_commit`. -/
def get_table_at_commit (fuel : Nat) (kv : KV) (table : Bytes)
    (commit_hash : Bytes) : Except String Rows :=
  if commit_hash = [] then .error "Empty commit hash"
  else .ok ((alookup (gtacLoop fuel kv table commit_hash []) table).getD [])

/-- Modelled from the spec (§4.7), for comparison with
`get_table_at_commit`: `materialize(table, commit)` walks ancestry from
`commit` primary-parent-ward, collects the commits oldest-first, and in
that order applies each commit's changes whose table matches, in their
stored sequence, into a fresh CRDT engine, returning `state[table]`. -/
def specMaterialize (fuel : Nat) (kv : KV) (table : Bytes) (commit_hash : Bytes) :
    Except String Rows := do
  let commits ← walk_chain fuel kv (some commit_hash)
  let engine ← commits.reverse.foldlM
    (fun e c =>
      (c.changes.filter fun ch => ch.table = table).foldlM CrdtEngine.apply_change e)
    ([] : CrdtEngine)
  .ok ((alookup engine table).getD [])

/-! ## Branch manager and CLI handlers (src/core/branch.rs,
src/cli/commands.rs) -/

/-- `BranchManager::create_branch`: reject blank names and existing
branches, then copy HEAD into `branch:<name>`. -/
def create_branch (kv : KV) (name : Bytes) : Except String KV :=
  if name.all (fun b => b = 32 || b = 9 || b = 10 || b = 13) then
    .error "Branch name cannot be empty"
  else if (kvGet kv (branchKey name)).isSome then .error "Branch already exists"
  else
    match kvGet kv headKey with
    | none => .error "HEAD not found"
    | some head => .ok (kvPut kv (branchKey name) head)

/-- The commit-hash path of `handle_checkout`: if the named commit object
exists, point HEAD at it. -/
def checkout_hash (kv : KV) (hash : Bytes) : Except String KV :=
  if (kvGet kv hash).isSome then .ok (kvPut kv headKey hash)
  else .error "No branch or commit found"

/-- The full-history replay `load_state` nested in `handle_merge`: walk
from the tip parent-ward, applying every commit's changes
forward-within-commit (newest commit first); errors propagate. -/
def load_state : Nat → KV → Bytes → CrdtEngine → Except String CrdtEngine
  | _, _, [], e => .ok e
  | 0, _, _ :: _, _ => .error "fuel exhausted"
  | fuel + 1, kv, h, e =>
    if h.length ≠ 32 then .error "Invalid commit hash length"
    else do
      let c ← get_commit_by_hash kv h
      let e' ← c.changes.foldlM CrdtEngine.apply_change e
      load_state fuel kv (c.parents.head?.getD []) e'

/-- The byte string `Merge branch '<name>'`. -/
def mergeMsg (name : Bytes) : Bytes :=
  [77, 101, 114, 103, 101, 32, 98, 114, 97, 110, 99, 104, 32, 39] ++ name ++ [39]

/-- `handle_merge`: load both tips' full replays, run `merge_states`, and
unless the changeset is empty create the merge commit via `create_commit`.
Returns the updated KV and `some hash` when a commit was created, `none`
on the empty-changeset "already up to date" path. -/
def handle_merge (fuel : Nat) (kv : KV) (branch_name : Bytes) (now : Nat) :
    Except String (KV × Option Bytes) := do
  let branch_head ←
    match kvGet kv (branchKey branch_name) with
    | none => Except.error "Branch not found"
    | some v => Except.ok v
  let current_head ←
    match kvGet kv headKey with
    | none => Except.error "HEAD not found"
    | some v => Except.ok v
  if branch_head = current_head then .error "Already up to date"
  else do
    let current_engine ← load_state fuel kv current_head []
    let branch_engine ← load_state fuel kv branch_head []
    let changes := (merge_states current_engine branch_engine).2
    if changes = [] then .ok (kv, none)
    else do
      let (ops, h) ← create_commit_ops kv (mergeMsg branch_name) changes now
      .ok (applyOps kv ops, some h)

/-! ## Concrete stores used to settle the claims

All byte strings are spelled out: table `t` is `[116]`, ids `1`/`2`/`3` are
`[49]`/`[50]`/`[51]`, branch `b` is `[98]`, row values are `Register`s over
single bytes. -/

def tT : Bytes := [116]

def encA : Bytes := encodeCrdtValue (CrdtValue.Register [65])

def encB : Bytes := encodeCrdtValue (CrdtValue.Register [66])

def encC : Bytes := encodeCrdtValue (CrdtValue.Register [67])

/-- Update chain: `c1` inserts row `1 ↦ A`, `c2` updates it to `B`. -/
def uRes1 : Except String (KV × Bytes) :=
  create_commit [] [99, 49] [Change.Insert tT [49] encA] 100

def uKV1 : KV := match uRes1 with | .ok p => p.1 | .error _ => []

def uH1 : Bytes := match uRes1 with | .ok p => p.2 | .error _ => []

def uRes2 : Except String (KV × Bytes) :=
  create_commit uKV1 [99, 50] [Change.Update tT [49] encB] 200

def uKV2 : KV := match uRes2 with | .ok p => p.1 | .error _ => []

def uH2 : Bytes := match uRes2 with | .ok p => p.2 | .error _ => []

/-- Insert chain: `c1` inserts row `1 ↦ A`, `c2` inserts row `2 ↦ B`. -/
def iRes1 : Except String (KV × Bytes) :=
  create_commit [] [99, 49] [Change.Insert tT [49] encA] 100

def iKV1 : KV := match iRes1 with | .ok p => p.1 | .error _ => []

def iH1 : Bytes := match iRes1 with | .ok p => p.2 | .error _ => []

def iRes2 : Except String (KV × Bytes) :=
  create_commit iKV1 [99, 50] [Change.Insert tT [50] encB] 200

def iKV2 : KV := match iRes2 with | .ok p => p.1 | .error _ => []

def iH2 : Bytes := match iRes2 with | .ok p => p.2 | .error _ => []

/-- Merge scenario on top of the insert chain: branch `b` is created at
`c2`, HEAD is moved back to `c1` by checkout, `c3` inserts row `3 ↦ C`;
then branch `b` (tip `c2`) is merged into HEAD (tip `c3`). -/
def mgKVc : KV := (create_branch iKV2 [98]).toOption.getD []

def mgKVd : KV := (checkout_hash mgKVc iH1).toOption.getD []

def mgRes3 : Except String (KV × Bytes) :=
  create_commit mgKVd [99, 51] [Change.Insert tT [51] encC] 300

def mgKV : KV := match mgRes3 with | .ok p => p.1 | .error _ => []

def mgH3 : Bytes := match mgRes3 with | .ok p => p.2 | .error _ => []

def mgRes : Except String (KV × Option Bytes) := handle_merge 10 mgKV [98] 400

def mgKVf : KV := match mgRes with | .ok p => p.1 | .error _ => []

def mgHM : Bytes := match mgRes with | .ok (_, some h) => h | _ => []

/-- Revert scenario: on the insert chain (HEAD at `c2`), revert to `c1`. -/
def rRes : Except String (KV × Bytes) := revert_to_commit 10 iKV2 iH1 500

def rKV : KV := match rRes with | .ok p => p.1 | .error _ => []

def rH : Bytes := match rRes with | .ok p => p.2 | .error _ => []

/-- Merge-planner engines: the same `(t, k)` slot holds `Register [2]`
locally and `Register [1]` remotely, or `Counter 5` locally. -/
def eL : CrdtEngine := [(tT, [([107], CrdtValue.Register [2])])]

def eR : CrdtEngine := [(tT, [([107], CrdtValue.Register [1])])]

def eL2 : CrdtEngine := [(tT, [([107], CrdtValue.Counter 5)])]

/-- Two logically equal commits whose `tree` map is iterated in the two
possible orders. -/
def dg1 : Bytes := List.replicate 32 1

def dg2 : Bytes := List.replicate 32 2

def cX : Commit :=
  { parents := [], message := [109], timestamp := 0, changes := [],
    tree := [([97], dg1), ([98], dg2)] }

def cY : Commit :=
  { parents := [], message := [109], timestamp := 0, changes := [],
    tree := [([98], dg2), ([97], dg1)] }

/-- A store holding rows of two tables, `t:1` and `t2:1`, where the table
name `t` is a byte prefix of the table name `t2`. -/
def kv7 : KV := [([116, 58, 49], [5]), ([116, 50, 58, 49], [6])]

/-- The digest claim C7 describes, stated from its words: fold, in
ascending key order, exactly the `(key, value)` pairs of the KV entries
whose key has the form `<table>:<id>` (that is, starts with
`<table>` followed by a colon). -/
def claimTableDigest (kv : KV) (table : Bytes) : Bytes :=
  blake3Hash ((sortRows (kvScanPref kv (table ++ [58]))).foldl
    (fun acc p => acc ++ p.1 ++ p.2) [])

def c7res : Except String (KV × Bytes) :=
  create_commit kv7 [109] [Change.Insert tT [49] encA] 100

def c7kv : KV := match c7res with | .ok p => p.1 | .error _ => []

def c7h : Bytes := match c7res with | .ok p => p.2 | .error _ => []

/-- The second commit of the update chain, as `create_commit` builds it on
`uKV1`, and the exact value it stores (encoding plus checksum). -/
def c8chs : List Change := [Change.Insert tT [50] encB]

def c8commit : Commit := built_commit (some uH1) uKV1 [99, 50] c8chs 200

def c8prot : Bytes := encodeCommit c8commit ++ blake3Hash (encodeCommit c8commit)

def c8h : Bytes := blake3Hash (encodeCommit c8commit)

/-- Replay a change sequence on top of an existing per-table row state
(seeding a CRDT engine with it), returning the table's rows — the
"applying `diff(from, to)` as Changes atop `materialize(T, from)`" of the
diff-completeness property. -/
def applyDiffAtop (rows : Rows) (table : Bytes) (chs : List Change) :
    Except String Rows :=
  (chs.foldlM CrdtEngine.apply_change ([(table, rows)] : CrdtEngine)).map
    fun e => (alookup e table).getD []

/-! ## CRDT merge commutativity (claim C9) -/

/-- Look a `(table, id)` slot up in an engine state. -/
def elookup (e : CrdtEngine) (t id : Bytes) : Option CrdtValue :=
  alookup ((alookup e t).getD []) id

/-- No `Counter`/`Register` mismatch between a local slot and a remote
value. -/
def compatSlot : Option CrdtValue → CrdtValue → Bool
  | some (.Counter _), .Register _ => false
  | some (.Register _), .Counter _ => false
  | _, _ => true

/-- The value a slot holds after merging: local alone, remote alone, or the
typed combination (the mismatch case keeps the local value; it is
unreachable under compatibility). -/
def combineSlot : Option CrdtValue → Option CrdtValue → Option CrdtValue
  | oa, none => oa
  | some (.Counter l), some (.Counter r) => some (.Counter (max l r))
  | some (.Register l), some (.Register r) =>
    some (.Register (if bytesLt l r then r else l))
  | none, some v => some v
  | some l, some _ => some l

/-- The `HashMap` invariant: engine tables and per-table row ids are
duplicate-free. -/
def EngineWF (e : CrdtEngine) : Prop :=
  (e.map Prod.fst).Nodup ∧ ∀ te ∈ e, (te.2.map Prod.fst).Nodup

instance (e : CrdtEngine) : Decidable (EngineWF e) := by
  unfold EngineWF; infer_instance

/-- No slot holds a `Counter` in `a` and a `Register` in `b` (checked over
`b`'s finitely many entries). -/
def compatEngine (a b : CrdtEngine) : Bool :=
  b.all fun te => te.2.all fun p => compatSlot (elookup a te.1 p.1) p.2

/-- Extensional equality of two optional row maps — `HashMap` equality. -/
def optRowsEquiv : Option Rows → Option Rows → Prop
  | none, none => True
  | some r1, some r2 => ∀ id, alookup r1 id = alookup r2 id
  | _, _ => False

/-- Extensional equality of two engine states — what `state == state`
means on the Rust `HashMap`s. -/
def EngineEquiv (m1 m2 : CrdtEngine) : Prop :=
  ∀ t, optRowsEquiv (alookup m1 t) (alookup m2 t)

/-- Both merges succeed and their states are extensionally equal. -/
def mergeOutcomesEquiv : Except String CrdtEngine → Except String CrdtEngine → Prop
  | .ok m1, .ok m2 => EngineEquiv m1 m2
  | _, _ => False

/-- Concrete engines for the commutativity witness: a shared register
slot, a counter-only slot, and a table present on one side only. -/
def wEngA : CrdtEngine :=
  [(tT, [([107], CrdtValue.Register [2]), ([108], CrdtValue.Counter 3)])]

def wEngB : CrdtEngine :=
  [(tT, [([107], CrdtValue.Register [5])]), ([117], [([49], CrdtValue.Counter 1)])]

def w10res : Except String (KV × Bytes) := create_commit [] [109] [] 0

def w10kv : KV := match w10res with | .ok p => p.1 | .error _ => []

def w10h : Bytes := match w10res with | .ok p => p.2 | .error _ => []

theorem alookup_aset {α β : Type} [DecidableEq α] (l : List (α × β)) (k : α) (v : β)
    (a : α) : alookup (aset l k v) a = if k = a then some v else alookup l a := by
  induction l with
  | nil => by_cases h : k = a <;> simp [aset, alookup, h]
  | cons p t ih =>
    obtain ⟨k', v'⟩ := p
    by_cases hk : k' = k
    · subst hk
      by_cases ha : k' = a <;> simp [aset, alookup, ha]
    · by_cases ha : k' = a
      · subst ha
        have : ¬ k = k' := fun h => hk h.symm
        simp [aset, alookup, hk, this]
      · simp [aset, alookup, hk, ha, ih]

theorem alookup_aremove {α β : Type} [DecidableEq α] (l : List (α × β)) (k : α)
    (hnd : (l.map Prod.fst).Nodup) (a : α) :
    alookup (aremove l k) a = if k = a then none else alookup l a := by
  induction l with
  | nil => by_cases h : k = a <;> simp [aremove, alookup, h]
  | cons p t ih =>
    obtain ⟨k', v'⟩ := p
    simp only [List.map_cons, List.nodup_cons] at hnd
    by_cases hk : k' = k
    · subst hk
      by_cases ha : k' = a
      · subst ha
        simp only [aremove, if_pos rfl, if_pos rfl]
        clear ih
        induction t with
        | nil => simp [alookup]
        | cons q s ihs =>
          obtain ⟨kq, vq⟩ := q
          simp only [List.map_cons, List.mem_cons, List.nodup_cons] at hnd
          have hne : ¬ kq = k' := fun h => hnd.1 (Or.inl h.symm)
          exact (by simpa [alookup, hne] using ihs ⟨fun h => hnd.1 (Or.inr h), hnd.2.2⟩)
      · simp [aremove, alookup, ha]
    · by_cases ha : k' = a
      · subst ha
        have : ¬ k = k' := fun h => hk h.symm
        simp [aremove, alookup, hk, this]
      · simp [aremove, alookup, hk, ha, ih hnd.2]

theorem natLE_length (k n : Nat) : (natLE k n).length = k := by
  induction k generalizing n with
  | zero => rfl
  | succ k ih => simp [natLE, ih]

theorem leNat_natLE (k n : Nat) (h : n < 256 ^ k) : leNat (natLE k n) = n := by
  induction k generalizing n with
  | zero => interval_cases n; rfl
  | succ k ih =>
    have hdiv : n / 256 < 256 ^ k := by
      rw [Nat.div_lt_iff_lt_mul (by norm_num)]
      calc n < 256 ^ (k + 1) := h
        _ = 256 ^ k * 256 := by ring
    simp only [natLE, leNat, ih (n / 256) hdiv]
    omega

theorem bytesLt_irrefl (a : Bytes) : bytesLt a a = false := by
  induction a with
  | nil => rfl
  | cons x t ih => simp [bytesLt, ih]

theorem bytesLt_trichot (a b : Bytes) :
    bytesLt a b = true ∨ bytesLt b a = true ∨ a = b := by
  induction a generalizing b with
  | nil => cases b with
    | nil => exact Or.inr (Or.inr rfl)
    | cons y bs => exact Or.inl rfl
  | cons x as ih =>
    cases b with
    | nil => exact Or.inr (Or.inl rfl)
    | cons y bs =>
      rcases Nat.lt_trichotomy x y with h | h | h
      · exact Or.inl (by simp [bytesLt, h])
      · subst h
        rcases ih bs with h' | h' | h'
        · exact Or.inl (by simp [bytesLt, h'])
        · exact Or.inr (Or.inl (by simp [bytesLt, h']))
        · exact Or.inr (Or.inr (by rw [h']))
      · refine Or.inr (Or.inl (by simp [bytesLt, h]))

theorem bytesLt_asymm (a b : Bytes) (h : bytesLt a b = true) : bytesLt b a = false := by
  induction a generalizing b with
  | nil => cases b with
    | nil => exact rfl
    | cons y bs => rfl
  | cons x as ih =>
    cases b with
    | nil => simp [bytesLt] at h
    | cons y bs =>
      simp only [bytesLt] at h ⊢
      rcases Nat.lt_trichotomy x y with hx | hx | hx
      · simp [hx, Nat.lt_asymm hx]
      · subst hx
        simp only [lt_irrefl, if_false] at h ⊢
        exact ih bs (by simpa using h)
      · simp [hx, Nat.lt_asymm hx] at h

/-! ### Codec round-trip -/

theorem decodeUInt_round (k n : Nat) (r : Bytes) (h : n < 256 ^ k) :
    decodeUInt k (natLE k n ++ r) = some (n, r) := by
  have hlen : (natLE k n).length = k := natLE_length k n
  have hk : k ≤ (natLE k n ++ r).length := by simp [hlen]
  have ht := List.take_left (natLE k n) r
  have hd := List.drop_left (natLE k n) r
  rw [hlen] at ht hd
  simp only [decodeUInt, if_pos hk, ht, hd, leNat_natLE k n h]

theorem decodeBytes_round (bs r : Bytes) (h : bs.length < u64Bound) :
    decodeBytes (encBytes bs ++ r) = some (bs, r) := by
  have h' : bs.length < 256 ^ 8 := h
  simp only [encBytes, List.append_assoc]
  simp only [decodeBytes, decodeUInt_round 8 bs.length (bs ++ r) h', Option.bind_eq_bind,
    Option.some_bind]
  have hle : bs.length ≤ (bs ++ r).length := by simp
  simp [hle, List.take_left, List.drop_left]

theorem decodeArr32_round (bs r : Bytes) (h : bs.length = 32) :
    decodeArr32 (bs ++ r) = some (bs, r) := by
  have hle : 32 ≤ (bs ++ r).length := by simp [h]
  simp only [decodeArr32, if_pos hle]
  rw [← h, List.take_left, List.drop_left]

theorem decodeN_round {α : Type} (dec : Bytes → Option (α × Bytes))
    (enc : α → Bytes) (xs : List α)
    (h : ∀ x ∈ xs, ∀ r, dec (enc x ++ r) = some (x, r)) (r : Bytes) :
    decodeN dec xs.length (xs.flatMap enc ++ r) = some (xs, r) := by
  induction xs with
  | nil => simp [decodeN]
  | cons x t ih =>
    have hx := h x (List.mem_cons_self x t) (t.flatMap enc ++ r)
    simp only [List.length_cons, List.flatMap_cons, List.append_assoc, decodeN,
      Option.bind_eq_bind, hx, Option.some_bind]
    rw [ih (fun y hy => h y (List.mem_cons_of_mem x hy))]
    rfl

theorem decodeCrdtValue_round (v : CrdtValue) (r : Bytes)
    (h : match v with
         | .Counter n => n < u64Bound
         | .Register bs => bs.length < u64Bound) :
    decodeCrdtValue (encodeCrdtValue v ++ r) = some (v, r) := by
  cases v with
  | Counter n =>
    simp only [encodeCrdtValue, List.append_assoc]
    simp [decodeCrdtValue, decodeUInt_round 4 0 _ (by norm_num),
      decodeUInt_round 8 n r (h : n < 256 ^ 8)]
  | Register bs =>
    simp only [encodeCrdtValue, List.append_assoc]
    simp [decodeCrdtValue, decodeUInt_round 4 1 _ (by norm_num),
      decodeBytes_round bs r h]

theorem decodeChange_round (c : Change) (r : Bytes) (h : c.wf) :
    decodeChange (encodeChange c ++ r) = some (c, r) := by
  cases c with
  | Insert t i v =>
    obtain ⟨h1, h2, h3⟩ := h
    simp only [encodeChange, List.append_assoc]
    simp [decodeChange, decodeUInt_round 4 0 _ (by norm_num),
      decodeBytes_round t _ h1, decodeBytes_round i _ h2, decodeBytes_round v _ h3]
  | Update t i v =>
    obtain ⟨h1, h2, h3⟩ := h
    simp only [encodeChange, List.append_assoc]
    simp [decodeChange, decodeUInt_round 4 1 _ (by norm_num),
      decodeBytes_round t _ h1, decodeBytes_round i _ h2, decodeBytes_round v _ h3]
  | Delete t i =>
    obtain ⟨h1, h2⟩ := h
    simp only [encodeChange, List.append_assoc]
    simp [decodeChange, decodeUInt_round 4 2 _ (by norm_num),
      decodeBytes_round t _ h1, decodeBytes_round i _ h2]

theorem decodeTreeEntry_round (e : Bytes × Bytes) (r : Bytes)
    (h1 : e.1.length < u64Bound) (h2 : e.2.length = 32) :
    decodeTreeEntry ((encBytes e.1 ++ e.2) ++ r) = some (e, r) := by
  simp only [List.append_assoc]
  simp [decodeTreeEntry, decodeBytes_round e.1 _ h1, decodeArr32_round e.2 r h2]

/-- Codec round-trip with an arbitrary tail: decoding the encoding of a
well-formed commit succeeds and leaves exactly the appended tail. -/
theorem decodeCommit_round (c : Commit) (r : Bytes) (h : c.wf) :
    decodeCommit (encodeCommit c ++ r) = some (c, r) := by
  obtain ⟨hp, hp32, hm, ht, hc, hcwf, htr, htrwf⟩ := h
  have hparents : ∀ p ∈ c.parents, ∀ r', decodeArr32 (id p ++ r') = some (p, r') :=
    fun p hp' r' => decodeArr32_round p r' (hp32 p hp')
  have hchanges : ∀ ch ∈ c.changes, ∀ r', decodeChange (encodeChange ch ++ r') =
      some (ch, r') := fun ch hch r' => decodeChange_round ch r' (hcwf ch hch)
  have htree : ∀ e ∈ c.tree, ∀ r', decodeTreeEntry ((encBytes e.1 ++ e.2) ++ r') =
      some (e, r') :=
    fun e he r' => decodeTreeEntry_round e r' (htrwf e he).1 (htrwf e he).2
  simp only [encodeCommit, List.append_assoc]
  simp only [decodeCommit, Option.bind_eq_bind,
    decodeUInt_round 8 c.parents.length _ hp, Option.some_bind,
    decodeN_round decodeArr32 id c.parents hparents, decodeBytes_round c.message _ hm,
    decodeUInt_round 8 c.timestamp _ ht, decodeUInt_round 8 c.changes.length _ hc,
    decodeN_round decodeChange encodeChange c.changes hchanges,
    decodeUInt_round 8 c.tree.length _ htr,
    decodeN_round decodeTreeEntry (fun p => encBytes p.1 ++ p.2) c.tree htree]

theorem deserializeCommit_round (c : Commit) (r : Bytes) (h : c.wf) :
    deserializeCommit (encodeCommit c ++ r) = some c := by
  simp [deserializeCommit, decodeCommit_round c r h]

theorem blake3Hash_length (bs : Bytes) : (blake3Hash bs).length = 32 := by
  simp [blake3Hash]

/-! ## Claims -/

/-- Claim C2: the claim states that `get_table_at_commit` replays the
primary-parent chain oldest-first, applying each commit's matching changes
in their stored sequence.  The code walks newest-first and iterates each
commit's changes reversed (`changes.iter().rev()`), so the oldest write
wins: at commit `c2` (an update of row `1` from `A` to `B`) the code
returns `A` while the claimed replay returns `B`. -/
theorem get_table_at_commit_reversed_replay :
    get_table_at_commit 10 uKV2 tT uH2 =
      Except.ok [([49], CrdtValue.Register [65])] ∧
    specMaterialize 10 uKV2 tT uH2 =
      Except.ok [([49], CrdtValue.Register [66])] ∧
    get_table_at_commit 10 uKV2 tT uH2 ≠ specMaterialize 10 uKV2 tT uH2 := by
  refine ⟨by decide, by decide, by decide⟩

/-- Claim C5: the claim states that `merge_states` emits, for a slot
present in both engines with unequal values, an `Update` carrying the
typed-CRDT-merged value, and errors on a `Counter`/`Register` mismatch.
The code instead always overwrites with `state2`'s value: with
`Register [2]` local and `Register [1]` remote it emits
`Update` carrying `Register [1]` although the byte-lexicographic max (the
typed merge, as `CrdtEngine::merge`'s own rule computes) is
`Register [2]`; and with `Counter 5` local it emits the same `Update`
instead of any error. -/
theorem merge_states_overwrites_remote :
    merge_states eL eR =
      ([(tT, [([107], CrdtValue.Register [1])])],
       [Change.Update tT [107] (encodeCrdtValue (CrdtValue.Register [1]))]) ∧
    mergeRow [([107], CrdtValue.Register [2])] [107] (CrdtValue.Register [1]) =
      Except.ok [([107], CrdtValue.Register [2])] ∧
    CrdtValue.Register [1] ≠ CrdtValue.Register [2] ∧
    merge_states eL2 eR =
      ([(tT, [([107], CrdtValue.Register [1])])],
       [Change.Update tT [107] (encodeCrdtValue (CrdtValue.Register [1]))]) := by
  refine ⟨by decide, by decide, by decide, by decide⟩

/-- Claim C6: the claim states that two encodings of logically equal
commits (equal `tree` as a map) yield identical bytes, the map being
serialized in sorted key order.  The `tree` is a `HashMap` serialized by
bincode in iteration order: the commits `cX` and `cY` agree on every field
and carry the same tree map in its two possible iteration orders, yet
their encodings — and hence their hashes — differ. -/
theorem commit_encoding_not_deterministic :
    cX.parents = cY.parents ∧ cX.message = cY.message ∧
    cX.timestamp = cY.timestamp ∧ cX.changes = cY.changes ∧
    sortRows cX.tree = sortRows cY.tree ∧
    encodeCommit cX ≠ encodeCommit cY ∧
    blake3Hash (encodeCommit cX) ≠ blake3Hash (encodeCommit cY) := by
  refine ⟨by decide, by decide, by decide, by decide, by decide, by decide, by decide⟩

/-- Claim C1: the claim states that a successful merge commit carries the
two parents `[current_head, branch_head]`.  In the merge scenario the
branch head and HEAD are present and distinct and the changeset is
non-empty, so `handle_merge` creates a commit — but `create_commit` takes
its parents from HEAD alone, so the created commit's parents are
`[current_head]` only, not `[current_head, branch_head]`. -/
theorem handle_merge_single_parent :
    handle_merge 10 mgKV [98] 400 = Except.ok (mgKVf, some mgHM) ∧
    kvGet mgKV (branchKey [98]) = some iH2 ∧
    kvGet mgKV headKey = some mgH3 ∧
    iH2 ≠ mgH3 ∧
    Except.map Commit.parents (get_commit_by_hash mgKVf mgHM) =
      Except.ok [mgH3] ∧
    ([mgH3] : List Bytes) ≠ [mgH3, iH2] := by
  refine ⟨by decide, by decide, by decide, by decide, by decide, by decide⟩

/-- Claim C3: the claim states that applying `diff(from, to)` atop
`materialize(T, from)` yields `materialize(T, to)` for every table of
`to.tree`.  On the insert chain the per-table tree hashes of `c1` and `c2`
are equal (they digest KV rows that commits never write), so
`get_commit_diffs` returns the empty changeset; applying it atop the
`from` state leaves row `2` absent while `materialize(t, to)` contains
`2 ↦ B`. -/
theorem get_commit_diffs_incomplete :
    (match get_commit_by_hash iKV2 iH2 with
     | .ok c => (alookup c.tree tT).isSome
     | .error _ => false) = true ∧
    get_commit_diffs 10 iKV2 iH1 iH2 = Except.ok [] ∧
    get_table_at_commit 10 iKV2 tT iH1 =
      Except.ok [([49], CrdtValue.Register [65])] ∧
    get_table_at_commit 10 iKV2 tT iH2 =
      Except.ok [([50], CrdtValue.Register [66]), ([49], CrdtValue.Register [65])] ∧
    applyDiffAtop [([49], CrdtValue.Register [65])] tT [] =
      Except.ok [([49], CrdtValue.Register [65])] ∧
    alookup [([49], CrdtValue.Register [65])] [50] = none ∧
    alookup [([50], CrdtValue.Register [66]), ([49], CrdtValue.Register [65])] [50] =
      some (CrdtValue.Register [66]) := by
  refine ⟨by decide, by decide, by decide, by decide, by decide, by decide, by decide⟩

/-- Claim C4: the claim states that after `revert_to_commit(V)` succeeds,
`materialize(T, V) = materialize(T, new HEAD)` for every table of
`V.tree`.  Reverting the insert chain to `c1` creates a commit whose
changes are `c1`'s with Inserts turned into Deletes, which does not
restore `c1`'s state: table `t` is in `c1.tree`, yet row `2 ↦ B` is
present at the new HEAD and absent at `V`. -/
theorem revert_to_commit_not_correct :
    revert_to_commit 10 iKV2 iH1 500 = Except.ok (rKV, rH) ∧
    (match get_commit_by_hash iKV2 iH1 with
     | .ok c => (alookup c.tree tT).isSome
     | .error _ => false) = true ∧
    kvGet rKV headKey = some rH ∧
    get_table_at_commit 10 rKV tT iH1 =
      Except.ok [([49], CrdtValue.Register [65])] ∧
    get_table_at_commit 10 rKV tT rH =
      Except.ok [([50], CrdtValue.Register [66]), ([49], CrdtValue.Register [65])] ∧
    alookup [([49], CrdtValue.Register [65])] [50] = none ∧
    alookup [([50], CrdtValue.Register [66]), ([49], CrdtValue.Register [65])] [50] =
      some (CrdtValue.Register [66]) := by
  refine ⟨by decide, by decide, by decide, by decide, by decide, by decide, by decide⟩

/-- Claim C7 (counterexample): the claim states that `tree[T]` digests
exactly the KV entries whose key has the form `<T>:<id>`.
`calculate_table_hash` prefix-scans on the bare table name, so for the
store `kv7` — rows `t:1` and `t2:1` — the commit created for table `t`
digests both entries, and its `tree[t]` differs from the digest of the
`t:`-keyed entries alone. -/
theorem table_hash_takes_foreign_rows :
    create_commit kv7 [109] [Change.Insert tT [49] encA] 100 =
      Except.ok (c7kv, c7h) ∧
    kvScanPref kv7 tT = [([116, 58, 49], [5]), ([116, 50, 58, 49], [6])] ∧
    kvScanPref kv7 (tT ++ [58]) = [([116, 58, 49], [5])] ∧
    (match get_commit_by_hash c7kv c7h with
     | .ok c => alookup c.tree tT
     | .error _ => none) = some (calculate_table_hash kv7 tT) ∧
    calculate_table_hash kv7 tT ≠ claimTableDigest kv7 tT := by
  refine ⟨by decide, by decide, by decide, by decide, by decide⟩

/-- Claim C8: the claim states that the commit object and the HEAD update
are written in one atomic batch.  `create_commit` issues two separate
`db.put` operations; executing only the first leaves exactly the state the
claim rules out: the commit object stored under its hash while HEAD still
names the previous commit. -/
theorem create_commit_writes_not_atomic :
    create_commit_ops uKV1 [99, 50] c8chs 200 =
      Except.ok ([DbOp.put c8h c8prot, DbOp.put headKey c8h], c8h) ∧
    kvGet (applyOps uKV1 [DbOp.put c8h c8prot]) c8h = some c8prot ∧
    kvGet (applyOps uKV1 [DbOp.put c8h c8prot]) headKey = some uH1 ∧
    uH1 ≠ c8h := by
  refine ⟨by decide, by decide, by decide, by decide⟩

theorem foldl_aset_lookup (f : Bytes → Bytes) (chs : List Change)
    (acc : List (Bytes × Bytes)) (T : Bytes) :
    alookup (chs.foldl (fun t c => aset t c.table (f c.table)) acc) T =
      if T ∈ chs.map Change.table then some (f T) else alookup acc T := by
  induction chs generalizing acc with
  | nil => simp
  | cons c rest ih =>
    simp only [List.foldl_cons, ih, List.map_cons, List.mem_cons]
    by_cases hr : T ∈ rest.map Change.table
    · simp [hr]
    · by_cases hc : c.table = T
      · simp [hr, hc, alookup_aset]
      · have : ¬ T = c.table := fun h => hc h.symm
        simp [hr, hc, this, alookup_aset]

/-- Claim C7 (amended): for every commit built by `create_commit` (HEAD
read as `parent`) and every table `T` touched by its changes, `tree[T]`
equals the digest obtained by folding, in ascending key order, the KV
entries whose key starts with the byte string `T` at commit time —
`calculate_table_hash` scans by the bare table-name prefix, without the
colon the claim's `<T>:<id>` form requires. -/
theorem built_commit_tree_digest (parent : Option Bytes) (kv : KV)
    (msg : Bytes) (changes : List Change) (now : Nat) (T : Bytes)
    (_hhead : get_head kv = Except.ok parent)
    (hT : T ∈ changes.map Change.table) :
    alookup (built_commit parent kv msg changes now).tree T =
      some (calculate_table_hash kv T) := by
  have := foldl_aset_lookup (calculate_table_hash kv) changes [] T
  simp only [built_commit]
  rw [this, if_pos hT]

theorem built_commit_tree_digest_witness :
    get_head kv7 = Except.ok none ∧
    tT ∈ ([Change.Insert tT [49] encA].map Change.table) ∧
    alookup (built_commit none kv7 [109] [Change.Insert tT [49] encA] 100).tree tT =
      some (calculate_table_hash kv7 tT) :=
  ⟨by decide, by decide,
   built_commit_tree_digest none kv7 [109] [Change.Insert tT [49] encA] 100 tT
     (by decide) (by decide)⟩

theorem exceptBind_ok {ε α β : Type} (a : α) (f : α → Except ε β) :
    (Except.ok a >>= f) = f a := rfl

theorem exceptPure_eq {ε α : Type} (a : α) : (pure a : Except ε α) = Except.ok a := rfl

theorem alookup_eq_none {α β : Type} [DecidableEq α] (l : List (α × β)) (a : α)
    (h : a ∉ l.map Prod.fst) : alookup l a = none := by
  induction l with
  | nil => rfl
  | cons p t ih =>
    simp only [List.map_cons, List.mem_cons] at h
    push_neg at h
    have : ¬ p.1 = a := fun hp => h.1 hp.symm
    obtain ⟨k, v⟩ := p
    simp only [alookup, if_neg this]
    exact ih h.2

theorem alookup_mem {α β : Type} [DecidableEq α] (l : List (α × β)) (a : α)
    (v : β) (h : alookup l a = some v) : (a, v) ∈ l := by
  induction l with
  | nil => simp [alookup] at h
  | cons p t ih =>
    obtain ⟨k, w⟩ := p
    by_cases hk : k = a
    · subst hk
      have h' : w = v := by simpa [alookup] using h
      subst h'
      exact List.mem_cons_self _ _
    · simp only [alookup, if_neg hk] at h
      exact List.mem_cons_of_mem _ (ih h)

theorem combineSlot_none (oa : Option CrdtValue) : combineSlot oa none = oa := by
  rcases oa with - | v
  · rfl
  · cases v <;> rfl

theorem combineSlot_comm (oa ob : Option CrdtValue)
    (h : ∀ x y, oa = some x → ob = some y → compatSlot (some x) y = true) :
    combineSlot oa ob = combineSlot ob oa := by
  rcases oa with - | x <;> rcases ob with - | y
  · rfl
  · cases y <;> rfl
  · cases x <;> rfl
  · have hc := h x y rfl rfl
    cases x with
    | Counter l =>
      cases y with
      | Counter r => simp [combineSlot, Nat.max_comm]
      | Register r => simp [compatSlot] at hc
    | Register l =>
      cases y with
      | Counter r => simp [compatSlot] at hc
      | Register r =>
        simp only [combineSlot, Option.some.injEq, CrdtValue.Register.injEq]
        rcases bytesLt_trichot l r with hlt | hlt | hlt
        · simp [hlt, bytesLt_asymm l r hlt]
        · simp [hlt, bytesLt_asymm r l hlt]
        · subst hlt; simp

theorem mergeRow_spec (mine : Rows) (id : Bytes) (v : CrdtValue)
    (hc : compatSlot (alookup mine id) v = true) :
    ∃ res, mergeRow mine id v = Except.ok res ∧
      ∀ a, alookup res a =
        if id = a then combineSlot (alookup mine id) (some v)
        else alookup mine a := by
  rcases hl : alookup mine id with - | lv
  · refine ⟨aset mine id v, ?_, ?_⟩
    · cases v <;> simp [mergeRow, hl]
    · intro a
      rw [alookup_aset]
      rcases v with n | bs <;> simp [combineSlot, hl]
  · cases lv with
    | Counter l =>
      cases v with
      | Counter r =>
        refine ⟨aset mine id (.Counter (max l r)), by simp [mergeRow, hl], ?_⟩
        intro a
        rw [alookup_aset]
        simp [combineSlot, hl]
      | Register r => simp [compatSlot, hl] at hc
    | Register l =>
      cases v with
      | Counter r => simp [compatSlot, hl] at hc
      | Register r =>
        by_cases hlt : bytesLt l r = true
        · refine ⟨aset mine id (.Register r), by simp [mergeRow, hl, hlt], ?_⟩
          intro a
          rw [alookup_aset]
          simp [combineSlot, hl, hlt]
        · refine ⟨mine, by simp [mergeRow, hl, hlt], ?_⟩
          intro a
          by_cases ha : id = a
          · subst ha
            simp [combineSlot, hl, hlt]
          · simp [ha]

theorem mergeRows_spec (others : Rows) : ∀ (mine : Rows),
    (others.map Prod.fst).Nodup →
    (∀ p ∈ others, compatSlot (alookup mine p.1) p.2 = true) →
    ∃ res,
      others.foldlM (fun rows p => mergeRow rows p.1 p.2) mine = Except.ok res ∧
      ∀ a, alookup res a = combineSlot (alookup mine a) (alookup others a) := by
  induction others with
  | nil =>
    intro mine _ _
    exact ⟨mine, rfl, fun a => by simp [alookup, combineSlot_none]⟩
  | cons p rest ih =>
    intro mine hnd hcomp
    obtain ⟨id0, v0⟩ := p
    simp only [List.map_cons, List.nodup_cons] at hnd
    obtain ⟨mine', hm', hlm'⟩ :=
      mergeRow_spec mine id0 v0 (hcomp (id0, v0) (List.mem_cons_self _ _))
    have hcomp' : ∀ q ∈ rest, compatSlot (alookup mine' q.1) q.2 = true := by
      intro q hq
      have hne : id0 ≠ q.1 := by
        intro he
        exact hnd.1 (he ▸ List.mem_map_of_mem Prod.fst hq)
      rw [hlm' q.1, if_neg hne]
      exact hcomp q (List.mem_cons_of_mem _ hq)
    obtain ⟨res, hres, hlres⟩ := ih mine' hnd.2 hcomp'
    refine ⟨res, ?_, ?_⟩
    · simp only [List.foldlM_cons, hm', exceptBind_ok]
      exact hres
    · intro a
      rw [hlres a, hlm' a]
      by_cases ha : id0 = a
      · subst ha
        have hnone : alookup rest id0 = none := alookup_eq_none rest id0 hnd.1
        simp [alookup, hnone, combineSlot_none]
      · have : ¬ id0 = a := ha
        simp [alookup, this]

theorem merge_spec (b : CrdtEngine) : ∀ (a : CrdtEngine),
    (b.map Prod.fst).Nodup →
    (∀ te ∈ b, (te.2.map Prod.fst).Nodup) →
    compatEngine a b = true →
    ∃ m, CrdtEngine.merge a b = Except.ok m ∧
      (∀ t id, elookup m t id = combineSlot (elookup a t id) (elookup b t id)) ∧
      (∀ t, alookup m t = none ↔ alookup a t = none ∧ alookup b t = none) := by
  induction b with
  | nil =>
    intro a _ _ _
    refine ⟨a, rfl, fun t id => ?_, fun t => ?_⟩
    · simp [elookup, alookup, combineSlot_none]
    · simp [alookup]
  | cons te rest ih =>
    intro a hnd hrows hcomp
    obtain ⟨t0, rows0⟩ := te
    simp only [List.map_cons, List.nodup_cons] at hnd
    simp only [compatEngine, List.all_cons, Bool.and_eq_true] at hcomp
    have hcomp0 : ∀ p ∈ rows0, compatSlot (alookup ((alookup a t0).getD []) p.1) p.2 = true := by
      intro p hp
      exact (List.all_eq_true.mp hcomp.1) p hp
    obtain ⟨merged, hmgd, hlmgd⟩ :=
      mergeRows_spec rows0 ((alookup a t0).getD [])
        (hrows (t0, rows0) (List.mem_cons_self _ _)) hcomp0
    have hcomp' : compatEngine (aset a t0 merged) rest = true := by
      show (rest.all fun te => te.2.all fun p =>
        compatSlot (elookup (aset a t0 merged) te.1 p.1) p.2) = true
      rw [List.all_eq_true]
      intro q hq
      show (q.2.all fun p =>
        compatSlot (elookup (aset a t0 merged) q.1 p.1) p.2) = true
      rw [List.all_eq_true]
      intro p hp
      have hne : t0 ≠ q.1 := by
        intro he
        exact hnd.1 (he ▸ List.mem_map_of_mem Prod.fst hq)
      have heq : elookup (aset a t0 merged) q.1 p.1 = elookup a q.1 p.1 := by
        simp [elookup, alookup_aset, hne]
      show compatSlot (elookup (aset a t0 merged) q.1 p.1) p.2 = true
      rw [heq]
      exact (List.all_eq_true.mp (List.all_eq_true.mp hcomp.2 q hq)) p hp
    obtain ⟨m, hm, hpm, hnm⟩ :=
      ih (aset a t0 merged) hnd.2
        (fun q hq => hrows q (List.mem_cons_of_mem _ hq)) hcomp'
    refine ⟨m, ?_, fun t id => ?_, fun t => ?_⟩
    · simp only [CrdtEngine.merge, List.foldlM_cons, hmgd, exceptBind_ok, exceptPure_eq]
      exact hm
    · rw [hpm t id]
      by_cases ht : t0 = t
      · subst ht
        have h1 : elookup (aset a t0 merged) t0 id = alookup merged id := by
          simp [elookup, alookup_aset]
        have h2 : elookup ((t0, rows0) :: rest) t0 id = alookup rows0 id := by
          simp [elookup, alookup]
        have h3 : elookup rest t0 id = none := by
          simp [elookup, alookup_eq_none rest t0 hnd.1, alookup]
        rw [h1, h2, h3, combineSlot_none, hlmgd id]
        rfl
      · have h1 : elookup (aset a t0 merged) t id = elookup a t id := by
          simp [elookup, alookup_aset, ht]
        have h2 : elookup ((t0, rows0) :: rest) t id = elookup rest t id := by
          simp [elookup, alookup, ht]
        rw [h1, h2]
    · rw [hnm t]
      by_cases ht : t0 = t
      · subst ht
        simp [alookup_aset, alookup]
      · simp [alookup_aset, alookup, ht]

/-- Claim C9: `CrdtEngine::merge` is commutative — for engines with
duplicate-free maps and no `Counter`/`Register` mismatch in either
direction, merging `b` into `a` and `a` into `b` both succeed and produce
extensionally equal states. -/
theorem crdt_merge_commutative (a b : CrdtEngine)
    (hwa : EngineWF a) (hwb : EngineWF b)
    (hab : compatEngine a b = true) (hba : compatEngine b a = true) :
    mergeOutcomesEquiv (CrdtEngine.merge a b) (CrdtEngine.merge b a) := by
  obtain ⟨m1, hm1, hp1, hn1⟩ := merge_spec b a hwb.1 hwb.2 hab
  obtain ⟨m2, hm2, hp2, hn2⟩ := merge_spec a b hwa.1 hwa.2 hba
  rw [hm1, hm2]
  show EngineEquiv m1 m2
  intro t
  rcases hl1 : alookup m1 t with - | r1 <;> rcases hl2 : alookup m2 t with - | r2
  · exact trivial
  · obtain ⟨ha, hb⟩ := (hn1 t).mp hl1
    have := (hn2 t).mpr ⟨hb, ha⟩
    rw [hl2] at this
    exact Option.noConfusion this
  · obtain ⟨hb, ha⟩ := (hn2 t).mp hl2
    have := (hn1 t).mpr ⟨ha, hb⟩
    rw [hl1] at this
    exact Option.noConfusion this
  · show ∀ id, alookup r1 id = alookup r2 id
    intro id
    have h1 : elookup m1 t id = alookup r1 id := by simp [elookup, hl1]
    have h2 : elookup m2 t id = alookup r2 id := by simp [elookup, hl2]
    rw [← h1, ← h2, hp1 t id, hp2 t id]
    apply combineSlot_comm
    intro x y hx hy
    obtain ⟨rowsb, hrb⟩ : ∃ rows, alookup b t = some rows := by
      rcases hrb : alookup b t with - | rows
      · rw [elookup, hrb] at hy
        simp [alookup] at hy
      · exact ⟨rows, rfl⟩
    have hrowmem : (id, y) ∈ rowsb := by
      apply alookup_mem
      rw [elookup, hrb] at hy
      exact hy
    have htabmem : (t, rowsb) ∈ b := alookup_mem b t rowsb hrb
    have := (List.all_eq_true.mp (List.all_eq_true.mp hab (t, rowsb) htabmem))
      (id, y) hrowmem
    rw [hx] at this
    exact this

theorem crdt_merge_commutative_witness :
    mergeOutcomesEquiv (CrdtEngine.merge wEngA wEngB)
      (CrdtEngine.merge wEngB wEngA) :=
  crdt_merge_commutative wEngA wEngB (by decide) (by decide) (by decide) (by decide)

/-! ## Store round-trip (claim C10) -/

/-- Claim C10: a commit successfully written by `create_commit` is read
back equal by `get_commit_by_hash`: the stored value is the commit's
encoding with the 32-byte checksum appended, the read path never strips
it, and `bincode::deserialize` parses a prefix of its input, so decoding
succeeds and is insensitive to the trailing bytes. -/
theorem create_commit_get_roundtrip (kv : KV) (msg : Bytes) (chs : List Change)
    (now : Nat) (parent : Option Bytes) (kv' : KV) (h : Bytes)
    (hhead : get_head kv = Except.ok parent)
    (hwf : (built_commit parent kv msg chs now).wf)
    (hcc : create_commit kv msg chs now = Except.ok (kv', h)) :
    get_commit_by_hash kv' h = Except.ok (built_commit parent kv msg chs now) := by
  have hdes : deserializeCommit (encodeCommit (built_commit parent kv msg chs now)) =
      some (built_commit parent kv msg chs now) := by
    have := deserializeCommit_round (built_commit parent kv msg chs now) [] hwf
    simpa using this
  have hops : create_commit_ops kv msg chs now =
      Except.ok
        ([DbOp.put (blake3Hash (encodeCommit (built_commit parent kv msg chs now)))
            (encodeCommit (built_commit parent kv msg chs now) ++
             blake3Hash (encodeCommit (built_commit parent kv msg chs now))),
          DbOp.put headKey
            (blake3Hash (encodeCommit (built_commit parent kv msg chs now)))],
         blake3Hash (encodeCommit (built_commit parent kv msg chs now))) := by
    unfold create_commit_ops
    rw [hhead]
    simp [hdes]
  unfold create_commit at hcc
  rw [hops] at hcc
  simp only [Except.ok.injEq, Prod.mk.injEq] at hcc
  obtain ⟨hkv', hh⟩ := hcc
  subst hkv'
  subst hh
  have hne : headKey ≠ blake3Hash (encodeCommit (built_commit parent kv msg chs now)) := by
    intro he
    have hl := blake3Hash_length (encodeCommit (built_commit parent kv msg chs now))
    rw [← he] at hl
    simp [headKey] at hl
  unfold get_commit_by_hash kvGet
  simp only [applyOps, applyOp, List.foldl_cons, List.foldl_nil, kvPut]
  rw [alookup_aset, if_neg hne, alookup_aset, if_pos rfl]
  simp only [deserializeCommit_round (built_commit parent kv msg chs now)
    (blake3Hash (encodeCommit (built_commit parent kv msg chs now))) hwf]

theorem create_commit_get_roundtrip_witness :
    get_commit_by_hash w10kv w10h = Except.ok (built_commit none [] [109] [] 0) :=
  create_commit_get_roundtrip [] [109] [] 0 none w10kv w10h (by decide) (by decide)
    (by decide)

end BranchDB
